import Mathlib

/-!
Verification of the duden-cli document extraction pipeline.

This file embeds, in Lean, the core of the repository's extraction code:

* `duden_cli/layout/html.py` — the text normalizer (`normalize_text`), the
  stripping rules (`strip_span`, `strip_italic`, `delete_any_a`,
  `delete_a_pattern`, `delete_a_rule`, `delete_a_icon`, `strip_a_lexeme`),
  the fixed-point noise-stripping engine (`clean_text`) and the
  definition-list splitter (`dl_split`);
* `duden_cli/layout/rechtschreibung.py` — the `Rechtschreibung` and
  `Meaning` parsers built on the engine;
* `duden_cli/definition.py` — the `WordType` label decoder.

Strings are modelled as `List Char`.  Python's `unicodedata.normalize("NFC", ·)`
is an external library call and is modelled as an abstract function parameter
`nfc : Str → Str`; theorems are quantified over it and witnesses instantiate
it with `id`.  Python exceptions (IndexError from `lexeme_strs[-1]` and
`contents[0]`, TypeError/AttributeError from iterating or dereferencing a
failed `find`) are modelled with `Except CleanErr`; the unbounded `while`
loop of `clean_text` is modelled with explicit fuel, `.error .fuelExhausted`
marking fuel exhaustion (theorems below show the needed fuel bounds).
-/

abbrev Str := List Char

/-- Whitespace for Python's `str.split()` / `str.strip()` (ASCII part). -/
def isPySpace (c : Char) : Bool :=
  c == ' ' || c == '\t' || c == '\n' || c == '\r' || c == '\x0b' || c == '\x0c'

/-- Helper for `splitWs`: accumulates the current word (reversed). -/
def splitWsAux : List Char → List Char → List (List Char)
  | [], acc => if acc.isEmpty then [] else [acc.reverse]
  | c :: rest, acc =>
    if isPySpace c then
      if acc.isEmpty then splitWsAux rest []
      else acc.reverse :: splitWsAux rest []
    else splitWsAux rest (c :: acc)

/-- Python `str.split()` with no separator: split on whitespace runs, no empties. -/
def splitWs (s : Str) : List Str := splitWsAux s []

/-- Python `str.split(sep)` for a one-character separator: keeps empty segments. -/
def splitOnChar (sep : Char) : Str → List Str
  | [] => [[]]
  | c :: rest =>
    if c == sep then [] :: splitOnChar sep rest
    else
      match splitOnChar sep rest with
      | [] => [[c]]
      | s :: ss => (c :: s) :: ss

/-- Python `str.strip()` from the left. -/
def lstrip (s : Str) : Str := s.dropWhile isPySpace

/-- Python `str.strip()` from the right. -/
def rstrip (s : Str) : Str := (s.reverse.dropWhile isPySpace).reverse

/-- Python `str.strip()`. -/
def pyStrip (s : Str) : Str := rstrip (lstrip s)

/-- Python `s.startswith(p)`, `strStarts s p` means `p` is a prefix of `s`. -/
def strStarts : Str → Str → Bool
  | _, [] => true
  | [], _ :: _ => false
  | c :: s, p :: ps => c == p && strStarts s ps

/-- Substring occurrence test: `strContains hay needle`. -/
def strContains : Str → Str → Bool
  | [], needle => needle.isEmpty
  | c :: rest, needle => strStarts (c :: rest) needle || strContains rest needle

/-- `normalize_text` from `layout/html.py`: NFC (abstract `nfc`), then
U+00A0 → space, then U+202F → space, then delete U+00AD.  Single-character
`str.replace` is modelled character-wise. -/
def normalize_text (nfc : Str → Str) (s : Str) : Str :=
  ((((nfc s).map (fun c => if c == '\u00A0' then ' ' else c)).map
      (fun c => if c == '\u202F' then ' ' else c)).filter
    (fun c => !(c == '\u00AD')))

/-- A node of the parsed HTML tree: a bs4 `NavigableString` or a `Tag` with
its name, attributes (each a key with a list of values; a single-valued
attribute is a one-element list) and children (`contents`). -/
inductive Node where
  | text (s : Str)
  | tag (name : Str) (attrs : List (Str × List Str)) (children : List Node)

mutual

/-- `str(element)`: a text leaf is its string, a tag renders its markup. -/
def render : Node → Str
  | .text s => s
  | .tag name attrs children =>
    '<' :: (name ++ renderAttrsList attrs ++ ('>' :: renderList children)
      ++ ('<' :: '/' :: name) ++ [ '>' ])

/-- Renders an attribute list as ` key="v1 v2"` fragments. -/
def renderAttrsList : List (Str × List Str) → Str
  | [] => []
  | (k, vs) :: rest =>
    ' ' :: (k ++ ('=' :: '"' :: joinSpaced vs) ++ ('"' :: renderAttrsList rest))

/-- Joins attribute values with single spaces. -/
def joinSpaced : List Str → Str
  | [] => []
  | [v] => v
  | v :: v' :: rest => v ++ (' ' :: joinSpaced (v' :: rest))

/-- Concatenation of `str(e)` over a node sequence. -/
def renderList : List Node → Str
  | [] => []
  | n :: ns => render n ++ renderList ns

end

mutual

/-- bs4 `.text`: concatenation of all descendant strings. -/
def nodeText : Node → Str
  | .text s => s
  | .tag _ _ children => textList children

/-- Concatenated text of a node sequence. -/
def textList : List Node → Str
  | [] => []
  | n :: ns => nodeText n ++ textList ns

end

mutual

/-- Total number of nodes in a tree (the termination measure). -/
def nodeSize : Node → Nat
  | .text _ => 1
  | .tag _ _ children => 1 + sizeList children

/-- Total number of nodes in a forest. -/
def sizeList : List Node → Nat
  | [] => 0
  | n :: ns => nodeSize n + sizeList ns

end

/-- `tag.contents` (empty for a text leaf). -/
def childrenOf : Node → List Node
  | .text _ => []
  | .tag _ _ children => children

/-- Association lookup in an attribute list. -/
def lookupAttr (key : Str) : List (Str × List Str) → Option (List Str)
  | [] => none
  | (k, v) :: rest => if k == key then some v else lookupAttr key rest

/-- bs4 `get_attribute_list(key)`: the values of the attribute; a missing
attribute yields `[None]` in Python, modelled as `[]` (membership tests of a
string in `[None]` and in `[]` agree). -/
def get_attribute_list (n : Node) (key : Str) : List Str :=
  match n with
  | .text _ => []
  | .tag _ attrs _ => (lookupAttr key attrs).getD []

mutual

/-- bs4 `find`, inner worker: first match among the descendants of a node,
in document (pre)order. -/
def findInNode (p : Node → Bool) : Node → Option Node
  | .text _ => none
  | .tag _ _ children => findInList p children

/-- bs4 `find` over a forest: checks each root, then its descendants. -/
def findInList (p : Node → Bool) : List Node → Option Node
  | [] => none
  | n :: rest =>
    if p n then some n
    else
      match findInNode p n with
      | some m => some m
      | none => findInList p rest

end

mutual

/-- bs4 `find_all`: every matching descendant in document (pre)order. -/
def findAllInNode (p : Node → Bool) : Node → List Node
  | .text _ => []
  | .tag _ _ children => findAllInList p children

/-- bs4 `find_all` over a forest. -/
def findAllInList (p : Node → Bool) : List Node → List Node
  | [] => []
  | n :: rest =>
    (if p n then [n] else []) ++ findAllInNode p n ++ findAllInList p rest

end

/-- Tag-name test used for `find(name=...)`. -/
def nameIs (nm : Str) : Node → Bool
  | .text _ => false
  | .tag n _ _ => n == nm

/-- `find("div", attrs={"id": v})`. -/
def isDivWithId (v : Str) (n : Node) : Bool :=
  match n with
  | .text _ => false
  | .tag nm _ _ => nm == "div".data && (get_attribute_list n "id".data).contains v

/-- The `id=re.compile(r"Bedeutung*")` filter of `Meaning.from_many`: bs4
matches an attribute regex with `search`, and searching `Bedeutun` followed
by zero or more `g` is equivalent to containing `Bedeutun`. -/
def idMatchesBedeutung (n : Node) : Bool :=
  (get_attribute_list n "id".data).any (fun v => strContains v "Bedeutun".data)

/-- Runtime failures of the Python code, plus the fuel marker of the model:
`indexError` models `IndexError` (from `lexeme_strs[-1]` / `contents[0]`),
`typeError` models `TypeError`/`AttributeError` on a failed `find`, and
`fuelExhausted` marks that the modelled `while` loop was cut off. -/
inductive CleanErr where
  | indexError
  | typeError
  | fuelExhausted

deriving DecidableEq, Repr

deriving instance DecidableEq for Except

/-- Output of a stripping rule: `(consumed, replacement-or-absent)`. -/
abbrev RuleOut := Bool × Option (List Node)

/-- A `PageElementPreprocessor`; `Except` carries a raised exception. -/
abbrev Rule := Node → Except CleanErr RuleOut

/-- `strip_span` from `layout/html.py`. -/
def strip_span : Rule
  | .tag nm attrs cs =>
    if nm == "span".data then .ok (true, some cs)
    else .ok (false, some [.tag nm attrs cs])
  | .text s => .ok (false, some [.text s])

/-- `strip_italic` from `layout/html.py`. -/
def strip_italic : Rule
  | .tag nm attrs cs =>
    if nm == "i".data then .ok (true, some cs)
    else .ok (false, some [.tag nm attrs cs])
  | .text s => .ok (false, some [.text s])

/-- `delete_any_a` from `layout/html.py` (`_html_delete_a` with no pattern). -/
def delete_any_a : Rule
  | .tag nm attrs cs =>
    if nm == "a".data then .ok (true, none)
    else .ok (false, some [.tag nm attrs cs])
  | .text s => .ok (false, some [.text s])

/-- `delete_a_pattern` from `layout/html.py`: `_html_delete_a` with a compiled
pattern, abstracted to the predicate `p` its anchored `match` induces on the
normalized joined content. -/
def delete_a_pattern (nfc : Str → Str) (p : Str → Bool) : Rule
  | .tag nm attrs cs =>
    if nm == "a".data then
      if p (normalize_text nfc (renderList cs)) then .ok (true, none)
      else .ok (false, some [.tag nm attrs cs])
    else .ok (false, some [.tag nm attrs cs])
  | .text s => .ok (false, some [.text s])

/-- `delete_a_rule` from `layout/html.py`: deletes any tag whose
`data-duden-ref-type` attribute contains `rule`. -/
def delete_a_rule : Rule
  | .tag nm attrs cs =>
    if (get_attribute_list (.tag nm attrs cs) "data-duden-ref-type".data).contains
        "rule".data then
      .ok (true, none)
    else .ok (false, some [.tag nm attrs cs])
  | .text s => .ok (false, some [.text s])

/-- `delete_a_icon` from `layout/html.py`: deletes any tag whose `class`
attribute contains `tuple__icon`. -/
def delete_a_icon : Rule
  | .tag nm attrs cs =>
    if (get_attribute_list (.tag nm attrs cs) "class".data).contains
        "tuple__icon".data then
      .ok (true, none)
    else .ok (false, some [.tag nm attrs cs])
  | .text s => .ok (false, some [.text s])

/-- Digit test for the `[0-9]+` part of the lexeme pattern. -/
def isDigitCh (c : Char) : Bool := '0' ≤ c && c ≤ '9'

/-- Lower-case test for the `[a-z]*` part of the lexeme pattern. -/
def isLowerCh (c : Char) : Bool := 'a' ≤ c && c ≤ 'z'

/-- `re.compile(r"\([0-9]+[a-z]*\)").match(s)`: anchored at the start, the
tail after the closing parenthesis is unconstrained.  The three character
classes are disjoint, so greedy matching is exact. -/
def lexemeParen : Str → Bool
  | '(' :: rest =>
    let ds := rest.takeWhile isDigitCh
    let r2 := (rest.dropWhile isDigitCh).dropWhile isLowerCh
    !ds.isEmpty &&
      (match r2 with
       | ')' :: _ => true
       | _ => false)
  | _ => false

/-- `strip_a_lexeme` from `layout/html.py`.  On a tag marked
`data-duden-ref-type=lexeme` it normalizes and whitespace-splits the joined
string content; `lexeme_strs[-1]` on an empty token list raises `IndexError`. -/
def strip_a_lexeme (nfc : Str → Str) : Rule
  | .tag nm attrs cs =>
    if (get_attribute_list (.tag nm attrs cs) "data-duden-ref-type".data).contains
        "lexeme".data then
      let lexeme_strs := splitWs (normalize_text nfc (renderList cs))
      match lexeme_strs.getLast? with
      | none => .error .indexError
      | some last =>
        if lexemeParen last then
          .ok (true, some [.text lexeme_strs.dropLast.flatten])
        else .ok (true, some cs)
    else .ok (false, some [.tag nm attrs cs])
  | .text s => .ok (false, some [.text s])

/-- Left-to-right effectful map (a Python list comprehension over a fallible
function: the first exception aborts the whole comprehension). -/
def mapE (f : α → Except CleanErr β) : List α → Except CleanErr (List β)
  | [] => .ok []
  | a :: as =>
    match f a with
    | .error e => .error e
    | .ok b =>
      match mapE f as with
      | .error e => .error e
      | .ok bs => .ok (b :: bs)

/-- One processor applied across the whole current sequence, exactly as the
comprehension body of `clean_text`: `processed_elements = [processor(e) ...]`,
the fired flag is `any(e[0])`, and the next sequence is the concatenation of
all non-`None` `e[1]` parts. -/
def applyRule (r : Rule) : List Node → Except CleanErr (Bool × List Node)
  | [] => .ok (false, [])
  | n :: rest =>
    match r n with
    | .error e => .error e
    | .ok (c, repl) =>
      match applyRule r rest with
      | .error e => .error e
      | .ok (c', rest') => .ok (c || c', repl.getD [] ++ rest')

/-- The inner `for processor in preprocessors` loop of `clean_text`, threading
the `processed` flag. -/
def runPass (rules : List Rule) (acc : Bool) (ns : List Node) :
    Except CleanErr (Bool × List Node) :=
  match rules with
  | [] => .ok (acc, ns)
  | r :: rs =>
    match applyRule r ns with
    | .error e => .error e
    | .ok (c, ns') => runPass rs (acc || c) ns'

/-- The outer `while processed` loop of `clean_text`, with fuel. -/
def cleanLoop : Nat → List Rule → List Node → Except CleanErr (List Node)
  | 0, _, _ => .error .fuelExhausted
  | fuel + 1, rules, ns =>
    match runPass rules false ns with
    | .error e => .error e
    | .ok (true, ns') => cleanLoop fuel rules ns'
    | .ok (false, ns') => .ok ns'

/-- `clean_text` from `layout/html.py`: `preprocessors=None` short-circuits to
`str(element)`; otherwise the fixed-point loop starting from `[element]`,
finally joining `str(e)` over the final sequence. -/
def clean_text (fuel : Nat) (element : Node) (preprocessors : Option (List Rule)) :
    Except CleanErr Str :=
  match preprocessors with
  | none => .ok (render element)
  | some rules => (cleanLoop fuel rules [element]).map renderList

/-- `clean_text` at the canonical sufficient fuel (`nodeSize + 1` passes; the
stability theorem below shows any larger fuel gives the same result for the
repository's rules). -/
def cleanStd (rules : List Rule) (element : Node) : Except CleanErr Str :=
  clean_text (nodeSize element + 1) element (some rules)

/-- The stripping rules defined by `layout/html.py` (besides the
pattern-parameterized `delete_a_pattern`). -/
def dudenRules (nfc : Str → Str) : List Rule :=
  [strip_span, strip_italic, delete_any_a, delete_a_rule, delete_a_icon,
    strip_a_lexeme nfc]

/-- A rule provided by `layout/html.py` (including any `delete_a_pattern`). -/
def ProvidedRule (nfc : Str → Str) (r : Rule) : Prop :=
  r ∈ dudenRules nfc ∨ ∃ p, r = delete_a_pattern nfc p

/-- Modelled from the spec's words for claim C1 (refinement comparison), node
step: "for each node currently in the sequence, apply rules in the given
order; the first rule that returns consumed = true determines the node's
replacement (its returned sequence, or nothing if absent); a node for which
no rule returns consumed = true passes through unchanged". -/
def specPassNode (rules : List Rule) (n : Node) : Except CleanErr (Bool × List Node) :=
  match rules with
  | [] => .ok (false, [n])
  | r :: rs =>
    match r n with
    | .error e => .error e
    | .ok (true, repl) => .ok (true, repl.getD [])
    | .ok (false, _) => specPassNode rs n

/-- Modelled from the spec's words for claim C1: "Concatenate all per-node
outputs, in original order, to form the next sequence". -/
def specPass (rules : List Rule) : List Node → Except CleanErr (Bool × List Node)
  | [] => .ok (false, [])
  | n :: rest =>
    match specPassNode rules n with
    | .error e => .error e
    | .ok (c, out) =>
      match specPass rules rest with
      | .error e => .error e
      | .ok (c', out') => .ok (c || c', out ++ out')

/-- Modelled from the spec's words for claim C1: "Repeat until a full pass
over all rules produces no change". -/
def specCleanLoop : Nat → List Rule → List Node → Except CleanErr (List Node)
  | 0, _, _ => .error .fuelExhausted
  | fuel + 1, rules, ns =>
    match specPass rules ns with
    | .error e => .error e
    | .ok (true, ns') => specCleanLoop fuel rules ns'
    | .ok (false, ns') => .ok ns'

/-- The claimed per-node first-rule algorithm, end to end. -/
def specClean (fuel : Nat) (rules : List Rule) (element : Node) : Except CleanErr Str :=
  (specCleanLoop fuel rules [element]).map renderList

/-- Amended description of one rule's sweep in `clean_text`: the rule is
applied to every node of the whole current sequence; every node contributes
the rule's returned sequence (nothing when absent; an unconsumed node's
returned sequence is the node itself by convention), and the sweep fires if
the rule consumed any node. -/
def amendSweep (r : Rule) (ns : List Node) : Except CleanErr (Bool × List Node) :=
  match mapE r ns with
  | .error e => .error e
  | .ok outs => .ok (outs.any (fun o => o.1), (outs.map (fun o => o.2.getD [])).flatten)

/-- Amended description of one full pass: the rules are applied sequentially
in the given order, each sweeping the entire sequence produced by the
previous rule's sweep. -/
def amendPass (rules : List Rule) (ns : List Node) : Except CleanErr (Bool × List Node) :=
  match rules with
  | [] => .ok (false, ns)
  | r :: rs =>
    match amendSweep r ns with
    | .error e => .error e
    | .ok (c, ns') =>
      match amendPass rs ns' with
      | .error e => .error e
      | .ok (c', ns'') => .ok (c || c', ns'')

/-- Amended description of the fixed-point loop: repeat passes until one
fires no rule. -/
def amendCleanLoop : Nat → List Rule → List Node → Except CleanErr (List Node)
  | 0, _, _ => .error .fuelExhausted
  | fuel + 1, rules, ns =>
    match amendPass rules ns with
    | .error e => .error e
    | .ok (true, ns') => amendCleanLoop fuel rules ns'
    | .ok (false, ns') => .ok ns'

/-- The amended algorithm end to end. -/
def amendClean (fuel : Nat) (rules : List Rule) (element : Node) : Except CleanErr Str :=
  (amendCleanLoop fuel rules [element]).map renderList

/-- The rule list of `dl_split` in `layout/html.py`. -/
def dlRules (nfc : Str → Str) : List Rule :=
  [strip_span, strip_italic, strip_a_lexeme nfc, delete_a_rule, delete_a_icon]

/-- `dl_split` from `layout/html.py`: the cleaned, joined text of the first
`dt` descendant paired with the first `dd` descendant.  Iterating a failed
`find(name="dt")` raises in Python, modelled as `typeError`; the `dd` is
passed along unchecked, so it stays an `Option`. -/
def dl_split (nfc : Str → Str) (element : Node) : Except CleanErr (Str × Option Node) :=
  match findInNode (nameIs "dt".data) element with
  | none => .error .typeError
  | some dt =>
    match mapE (fun e => cleanStd (dlRules nfc) e) (childrenOf dt) with
    | .error e => .error e
    | .ok parts => .ok (parts.flatten, findInNode (nameIs "dd".data) element)

/-- `_extract_dl` from `layout/rechtschreibung.py`: `dl_split` over every
`dl` descendant, in document order. -/
def extract_dl (nfc : Str → Str) (root : Node) : Except CleanErr (List (Str × Option Node)) :=
  mapE (dl_split nfc) (findAllInNode (nameIs "dl".data) root)

/-- The field selection idiom `([h[1] for h in he if h[0].startswith(pre)] or
[None])[0]` of `rechtschreibung.py`. -/
def selectField (fields : List (Str × Option Node)) (pre : Str) : Option Node :=
  match fields.filter (fun f => strStarts f.1 pre) with
  | [] => none
  | f :: _ => f.2

/-- The `Rechtschreibung` dataclass. -/
structure Rechtschreibung where
  hyphenation : Option Str
  examples : Option (List Str)

deriving DecidableEq, Repr

/-- `Rechtschreibung.hyphenation_from_tag`: stores `tag.contents[0]` (its
string form) with no further processing; `contents[0]` of a childless value
raises `IndexError`. -/
def Rechtschreibung.hyphenation_from_tag (r : Rechtschreibung) (tag : Option Node) :
    Except CleanErr Rechtschreibung :=
  match tag with
  | none => .ok r
  | some t =>
    match childrenOf t with
    | [] => .error .indexError
    | c :: _ => .ok ⟨some (render c), r.examples⟩

/-- The preprocessor list of `Rechtschreibung.examples_from_tag` and of the
`Meaning` extractors. -/
def exampleRules (nfc : Str → Str) : List Rule :=
  [strip_span, strip_italic, delete_a_rule, strip_a_lexeme nfc]

/-- `Rechtschreibung.examples_from_tag`: cleans each child of the field
value, joins, splits on `;` and strips each segment. -/
def Rechtschreibung.examples_from_tag (nfc : Str → Str) (r : Rechtschreibung)
    (tag : Option Node) : Except CleanErr Rechtschreibung :=
  match tag with
  | none => .ok r
  | some t =>
    match mapE (fun e => cleanStd (exampleRules nfc) e) (childrenOf t) with
    | .error e => .error e
    | .ok parts =>
      .ok ⟨r.hyphenation, some ((splitOnChar ';' parts.flatten).map pyStrip)⟩

/-- Modelled from the spec's words for claim C6 (refinement comparison): the
spec claims the examples decoder applies the style/emphasis/reference rules
plus unconditional link deletion; this rule list adds `delete_any_a` to the
list the code actually uses. -/
def specExamplesRules (nfc : Str → Str) : List Rule :=
  [strip_span, strip_italic, delete_a_rule, strip_a_lexeme nfc, delete_any_a]

/-- Modelled from the spec's words for claim C6: the examples decoder with
unconditional hyperlink deletion included. -/
def specExamplesDecoder (nfc : Str → Str) (r : Rechtschreibung) (tag : Option Node) :
    Except CleanErr Rechtschreibung :=
  match tag with
  | none => .ok r
  | some t =>
    match mapE (fun e => cleanStd (specExamplesRules nfc) e) (childrenOf t) with
    | .error e => .error e
    | .ok parts =>
      .ok ⟨r.hyphenation, some ((splitOnChar ';' parts.flatten).map pyStrip)⟩

/-- Modelled from the spec's words for claim C9 (refinement comparison):
"Hyphenation decoder: ... takes its first child's text, normalized." -/
def specHyphenation (nfc : Str → Str) (t : Node) : Option Str :=
  (childrenOf t).head?.map (fun c => normalize_text nfc (nodeText c))

/-- `Rechtschreibung.from_soup`: finds the article and its
`div#rechtschreibung`, extracts the labeled fields, then applies the
hyphenation decoder (label startswith `Worttrennung`) and the examples
decoder (label startswith `Beispiel`). -/
def Rechtschreibung.from_soup (nfc : Str → Str) (soup : Node) :
    Except CleanErr Rechtschreibung :=
  match findInNode (nameIs "article".data) soup with
  | none => .error .typeError
  | some article =>
    match findInNode (isDivWithId "rechtschreibung".data) article with
    | none => .error .typeError
    | some main_div =>
      match extract_dl nfc main_div with
      | .error e => .error e
      | .ok he =>
        match Rechtschreibung.hyphenation_from_tag ⟨none, none⟩
            (selectField he "Worttrennung".data) with
        | .error e => .error e
        | .ok r1 =>
          Rechtschreibung.examples_from_tag nfc r1 (selectField he "Beispiel".data)

/-- The `Meaning` dataclass. -/
structure Meaning where
  meaning : Str
  examples : Option (List Str)
  grammar : Option Str
  uses : Option (List Str)

deriving DecidableEq, Repr

/-- `Meaning.examples_from_tag`: inside the field value, finds the `ul`
(attribute access on a failed `find` raises, modelled `typeError`), and for
every `li` joins the normalized cleaned children. -/
def Meaning.examples_from_tag (nfc : Str → Str) (m : Meaning) (tag : Option Node) :
    Except CleanErr Meaning :=
  match tag with
  | none => .ok m
  | some t =>
    match findInNode (nameIs "ul".data) t with
    | none => .error .typeError
    | some ul =>
      match mapE
          (fun li =>
            match mapE
                (fun e => (cleanStd (exampleRules nfc) e).map (normalize_text nfc))
                (childrenOf li) with
            | .error e => .error e
            | .ok parts => .ok parts.flatten)
          (findAllInNode (nameIs "li".data) ul) with
      | .error e => .error e
      | .ok exs => .ok ⟨m.meaning, some exs, m.grammar, m.uses⟩

/-- `Meaning.from_single`: the meaning text comes from the first `p`
descendant, else the first `div` descendant, else the container yields no
meanings; the record's examples come from the field labeled `Beispiel` of
the container's definition lists. -/
def Meaning.from_single (nfc : Str → Str) (tag : Node) :
    Except CleanErr (Option (List Meaning)) :=
  let meaning_tag :=
    match findInNode (nameIs "p".data) tag with
    | some t => some t
    | none => findInNode (nameIs "div".data) tag
  match meaning_tag with
  | none => .ok none
  | some mt =>
    match mapE (fun e => cleanStd (exampleRules nfc) e) (childrenOf mt) with
    | .error e => .error e
    | .ok parts =>
      let meaning := normalize_text nfc parts.flatten
      match extract_dl nfc tag with
      | .error e => .error e
      | .ok dls =>
        match Meaning.examples_from_tag nfc ⟨meaning, none, none, none⟩
            (selectField dls "Beispiel".data) with
        | .error e => .error e
        | .ok m => .ok (some [m])

/-- `Meaning.from_many`: the `li` items of the `ol` whose id matches the
`Bedeutung` pattern, each put through `from_single`; items yielding no
record are dropped, and an empty remainder collapses to no meanings. -/
def Meaning.from_many (nfc : Str → Str) (tag : Node) :
    Except CleanErr (Option (List Meaning)) :=
  match findInNode (nameIs "ol".data) tag with
  | none => .error .typeError
  | some ol =>
    match mapE
        (fun li => (Meaning.from_single nfc li).map (fun o => o.bind List.head?))
        (findAllInNode (fun n => nameIs "li".data n && idMatchesBedeutung n) ol) with
    | .error e => .error e
    | .ok ms =>
      let kept := ms.filterMap id
      .ok (if kept.isEmpty then none else some kept)

/-- `Meaning.from_soup`: the dispatch between the `bedeutung` (single) and
`bedeutungen` (multi) containers. -/
def Meaning.from_soup (nfc : Str → Str) (soup : Node) :
    Except CleanErr (Option (List Meaning)) :=
  match findInNode (nameIs "article".data) soup with
  | none => .error .typeError
  | some article =>
    match findInNode (isDivWithId "bedeutung".data) article with
    | some d => Meaning.from_single nfc d
    | none =>
      match findInNode (isDivWithId "bedeutungen".data) article with
      | some d => Meaning.from_many nfc d
      | none => .ok none

/-- The `WordType` enumeration of `definition.py` (the source's `PREFIX` and
`SUFFIX` members are spelled `PREFIX_T` and `SUFFIX_T` here; neither occurs
in the label table). -/
inductive WordType where
  | NOUN_MASCULINE | NOUN_FEMININE | NOUN_NEUTRAL | NOUN_MASCULINE_NEUTRAL
  | ADJECTIVE | ADVERB | WEAK_VERB | STRONG_VERB | IRREGULAR_VERB
  | ARTICLE | PROPER_NOUN | INTERJECTION | CONJUNCTION | PARTICLE
  | PREFIX_T | PREPOSITION | PRONOUN | SUFFIX_T | NUMERAL

deriving DecidableEq, Repr

/-- The label cases of the `match contents` block in `WordType.parse_tag`
(`definition.py` lines 109-134), in source order. -/
def wordTypeTable : List (Str × WordType) :=
  [("Substantiv, maskulin".data, .NOUN_MASCULINE),
   ("Substantiv, feminin".data, .NOUN_FEMININE),
   ("Substantiv, Neutrum".data, .NOUN_NEUTRAL),
   ("Substantiv, maskulin, oder Substantiv, Neutrum".data, .NOUN_MASCULINE_NEUTRAL),
   ("Adjektiv".data, .ADJECTIVE),
   ("Adverb".data, .ADVERB),
   ("schwaches Verb".data, .WEAK_VERB),
   ("starkes Verb".data, .STRONG_VERB),
   ("unregelmäßiges Verb".data, .IRREGULAR_VERB),
   ("Partikel".data, .PARTICLE),
   ("Interjektion".data, .INTERJECTION)]

/-- The `match contents` block of `WordType.parse_tag`: sequential exact
string matching; the wildcard case raises (`none` models the raised
`NotImplementedError`). -/
def WordType.parse_tag_value (s : Str) : Option WordType :=
  if s = "Substantiv, maskulin".data then some .NOUN_MASCULINE
  else if s = "Substantiv, feminin".data then some .NOUN_FEMININE
  else if s = "Substantiv, Neutrum".data then some .NOUN_NEUTRAL
  else if s = "Substantiv, maskulin, oder Substantiv, Neutrum".data then
    some .NOUN_MASCULINE_NEUTRAL
  else if s = "Adjektiv".data then some .ADJECTIVE
  else if s = "Adverb".data then some .ADVERB
  else if s = "schwaches Verb".data then some .WEAK_VERB
  else if s = "starkes Verb".data then some .STRONG_VERB
  else if s = "unregelmäßiges Verb".data then some .IRREGULAR_VERB
  else if s = "Partikel".data then some .PARTICLE
  else if s = "Interjektion".data then some .INTERJECTION
  else none

/-- Association lookup against the fixed label table. -/
def lookupWordType (s : Str) : List (Str × WordType) → Option WordType
  | [] => none
  | (k, v) :: rest => if s = k then some v else lookupWordType s rest

/-- A well-behaved stripping rule: a firing strictly shrinks the total node
count, a non-firing returns the node alone, and the only exception it can
raise is a genuine Python one (never the model's fuel marker). -/
def GoodRule (r : Rule) : Prop :=
  (∀ n c repl, r n = .ok (c, repl) →
    (c = true → sizeList (repl.getD []) < nodeSize n) ∧
    (c = false → repl = some [n])) ∧
  ∀ n, r n ≠ .error .fuelExhausted

/-- A rule that never fires on a text leaf (all rules of `layout/html.py`). -/
def TextInert (r : Rule) : Prop :=
  ∀ s, r (.text s) = .ok (false, some [.text s])

/-- The combined character-level effect claimed for the normalizer. -/
def normStep (c : Char) : Option Char :=
  if c = '\u00AD' then none
  else if c = '\u00A0' then some ' '
  else if c = '\u202F' then some ' '
  else some c

/-- Joining segments back with the separator (used to state that splitting
preserves content and order). -/
def joinWith (sep : Char) : List Str → Str
  | [] => []
  | [x] => x
  | x :: y :: rest => x ++ sep :: joinWith sep (y :: rest)

/-- Decidable success test: the extraction produced a record list. -/
def isOkSomeOne (x : Except CleanErr (Option (List Meaning))) : Bool :=
  match x with
  | .ok (some _) => true
  | _ => false

/-- The node `<span><span class="tuple__icon">x</span></span>` on which the
code's sweep order and the claimed per-node first-rule passes disagree. -/
def cexNodeC1 : Node :=
  .tag "span".data []
    [.tag "span".data [("class".data, ["tuple__icon".data])] [.text "x".data]]

/-- A span with two text children: unwrapping it grows the sequence. -/
def cexNodeC2 : Node := .tag "span".data [] [.text "a".data, .text "b".data]

/-- Six nested style/emphasis wrappers around one text leaf. -/
def nestedWrappers : Node :=
  .tag "span".data [] [.tag "i".data [] [.tag "span".data [] [.tag "i".data []
    [.tag "span".data [] [.tag "i".data [] [.text "tief".data]]]]]]

/-- The single-meaning container of the C3 counterexample: a `bedeutung` div
with no paragraph or div child. -/
def cexDivC3 : Node :=
  .tag "div".data [("id".data, ["bedeutung".data])] [.text "leer".data]

/-- The article of the C3 counterexample. -/
def cexArticleC3 : Node := .tag "article".data [] [cexDivC3]

/-- The document of the C3 counterexample. -/
def cexSoupC3 : Node := .tag "html".data [] [cexArticleC3]

/-- One enumerated meaning item of the C3 witness. -/
def liC3 (idv : Str) (s : Str) : Node :=
  .tag "li".data [("id".data, [idv])] [.tag "p".data [] [.text s]]

/-- The ordered list of the C3 witness: three items with matching ids. -/
def olC3 : Node :=
  .tag "ol".data []
    [liC3 "Bedeutung-1".data "eins".data, liC3 "Bedeutung-2".data "zwei".data,
      liC3 "Bedeutung-3".data "drei".data]

/-- The multi-meaning container of the C3 witness. -/
def dC3 : Node := .tag "div".data [("id".data, ["bedeutungen".data])] [olC3]

/-- The article of the C3 witness. -/
def articleC3 : Node := .tag "article".data [] [dC3]

/-- The document of the C3 witness. -/
def soupC3 : Node := .tag "html".data [] [articleC3]

/-- The single-meaning container of the C5 counterexample: its meaning
paragraph is empty. -/
def cexDivC5 : Node :=
  .tag "div".data [("id".data, ["bedeutung".data])] [.tag "p".data [] []]

/-- The document of the C5 counterexample. -/
def cexSoupC5 : Node :=
  .tag "html".data [] [.tag "article".data [] [cexDivC5]]

/-- A single-meaning container whose paragraph has text, for the C5 witness. -/
def divC5 : Node := .tag "div".data [] [.tag "p".data [] [.text "Sinn".data]]

/-- The field value of the C6 counterexample: a plain hyperlink. -/
def cexTagC6 : Node := .tag "dd".data [] [.tag "a".data [] [.text "klick".data]]

/-- The field value of the C6 witness, the spec's round-trip example. -/
def w6tag : Node := .tag "dd".data [] [.text "Er ist schnell; Sie ist schneller".data]

/-- A stripping rule (with the conventional non-consuming behaviour) that
fires on the text leaf `ab` — admissible for `clean_text`, whose
preprocessor type places no restriction on rules. -/
def cexRuleC7 : Rule := fun n =>
  match n with
  | .text s =>
    if s == "ab".data then .ok (true, some [.text "X".data])
    else .ok (false, some [.text s])
  | t => .ok (false, some [t])

/-- The input of the C7 counterexample. -/
def cexNodeC7 : Node := .tag "span".data [] [.text "a".data, .text "b".data]

/-- The field value of the C9 counterexample: hyphenated display text with a
soft hyphen (U+00AD). -/
def cexTagC9 : Node := .tag "dd".data [] [.text "Auf­gabe".data]

/-- The field value of the C9 witness. -/
def w9tag : Node := .tag "dd".data [] [.text "Wort".data]

/-- The lexeme cross-reference marker with empty content, on which the
lexeme-stripping rule crashes. -/
def lexNode : Node :=
  .tag "a".data [("data-duden-ref-type".data, ["lexeme".data])] []

theorem applyRule_eq_amendSweep (r : Rule) : ∀ ns, applyRule r ns = amendSweep r ns := by
  intro ns
  induction ns with
  | nil => simp [applyRule, amendSweep, mapE]
  | cons n rest ih =>
    simp only [applyRule, amendSweep, mapE]
    cases h : r n with
    | error e => rfl
    | ok o =>
      obtain ⟨c, repl⟩ := o
      simp only [amendSweep] at ih
      cases h2 : mapE r rest with
      | error e => rw [h2] at ih; simp only [ih]
      | ok outs => rw [h2] at ih; simp [ih, Bool.or_comm]

theorem runPass_eq_amendPass (rules : List Rule) :
    ∀ acc ns, runPass rules acc ns = (amendPass rules ns).map (fun p => (acc || p.1, p.2)) := by
  induction rules with
  | nil => intro acc ns; simp [runPass, amendPass, Except.map]
  | cons r rs ih =>
    intro acc ns
    simp only [runPass, amendPass, applyRule_eq_amendSweep]
    cases h : amendSweep r ns with
    | error e => rfl
    | ok o =>
      obtain ⟨c, ns'⟩ := o
      dsimp only
      rw [ih]
      cases h2 : amendPass rs ns' with
      | error e => rfl
      | ok o' => simp [Except.map, Bool.or_assoc]

theorem cleanLoop_eq_amendCleanLoop :
    ∀ fuel rules ns, cleanLoop fuel rules ns = amendCleanLoop fuel rules ns := by
  intro fuel
  induction fuel with
  | zero => intro rules ns; rfl
  | succ f ih =>
    intro rules ns
    simp only [cleanLoop, amendCleanLoop, runPass_eq_amendPass]
    cases h : amendPass rules ns with
    | error e => rfl
    | ok o =>
      obtain ⟨c, ns'⟩ := o
      cases c with
      | false => simp [Except.map]
      | true => simp [Except.map, ih]

theorem nodeSize_pos (n : Node) : 0 < nodeSize n := by
  cases n <;> simp [nodeSize] <;> omega

theorem sizeList_append (a b : List Node) : sizeList (a ++ b) = sizeList a + sizeList b := by
  induction a with
  | nil => simp [sizeList]
  | cons n ns ih => simp [sizeList, ih]; omega

theorem sizeList_pos_of_ne_nil (cs : List Node) (h : cs ≠ []) : 0 < sizeList cs := by
  cases cs with
  | nil => exact absurd rfl h
  | cons c cs' =>
    have := nodeSize_pos c
    simp [sizeList]; omega

theorem goodRule_strip_span : GoodRule strip_span := by
  constructor
  · intro n c repl h
    cases n with
    | text s =>
      simp only [strip_span] at h
      obtain ⟨hc, hr⟩ := by simpa using h
      subst hc; subst hr; simp
    | tag nm attrs cs =>
      simp only [strip_span] at h
      split at h
      · obtain ⟨hc, hr⟩ := by simpa using h
        subst hc; subst hr
        refine ⟨fun _ => ?_, by simp⟩
        simp [nodeSize]
      · obtain ⟨hc, hr⟩ := by simpa using h
        subst hc; subst hr; simp
  · intro n h
    cases n with
    | text s => simp [strip_span] at h
    | tag nm attrs cs => simp only [strip_span] at h; split at h <;> simp at h

theorem goodRule_strip_italic : GoodRule strip_italic := by
  constructor
  · intro n c repl h
    cases n with
    | text s =>
      simp only [strip_italic] at h
      obtain ⟨hc, hr⟩ := by simpa using h
      subst hc; subst hr; simp
    | tag nm attrs cs =>
      simp only [strip_italic] at h
      split at h
      · obtain ⟨hc, hr⟩ := by simpa using h
        subst hc; subst hr
        refine ⟨fun _ => ?_, by simp⟩
        simp [nodeSize]
      · obtain ⟨hc, hr⟩ := by simpa using h
        subst hc; subst hr; simp
  · intro n h
    cases n with
    | text s => simp [strip_italic] at h
    | tag nm attrs cs => simp only [strip_italic] at h; split at h <;> simp at h

theorem goodRule_delete_any_a : GoodRule delete_any_a := by
  constructor
  · intro n c repl h
    cases n with
    | text s =>
      simp only [delete_any_a] at h
      obtain ⟨hc, hr⟩ := by simpa using h
      subst hc; subst hr; simp
    | tag nm attrs cs =>
      simp only [delete_any_a] at h
      split at h
      · obtain ⟨hc, hr⟩ := by simpa using h
        subst hc; subst hr
        refine ⟨fun _ => ?_, by simp⟩
        simpa [sizeList] using nodeSize_pos (.tag nm attrs cs)
      · obtain ⟨hc, hr⟩ := by simpa using h
        subst hc; subst hr; simp
  · intro n h
    cases n with
    | text s => simp [delete_any_a] at h
    | tag nm attrs cs => simp only [delete_any_a] at h; split at h <;> simp at h

theorem goodRule_delete_a_rule : GoodRule delete_a_rule := by
  constructor
  · intro n c repl h
    cases n with
    | text s =>
      simp only [delete_a_rule] at h
      obtain ⟨hc, hr⟩ := by simpa using h
      subst hc; subst hr; simp
    | tag nm attrs cs =>
      simp only [delete_a_rule] at h
      split at h
      · obtain ⟨hc, hr⟩ := by simpa using h
        subst hc; subst hr
        refine ⟨fun _ => ?_, by simp⟩
        simpa [sizeList] using nodeSize_pos (.tag nm attrs cs)
      · obtain ⟨hc, hr⟩ := by simpa using h
        subst hc; subst hr; simp
  · intro n h
    cases n with
    | text s => simp [delete_a_rule] at h
    | tag nm attrs cs => simp only [delete_a_rule] at h; split at h <;> simp at h

theorem goodRule_delete_a_icon : GoodRule delete_a_icon := by
  constructor
  · intro n c repl h
    cases n with
    | text s =>
      simp only [delete_a_icon] at h
      obtain ⟨hc, hr⟩ := by simpa using h
      subst hc; subst hr; simp
    | tag nm attrs cs =>
      simp only [delete_a_icon] at h
      split at h
      · obtain ⟨hc, hr⟩ := by simpa using h
        subst hc; subst hr
        refine ⟨fun _ => ?_, by simp⟩
        simpa [sizeList] using nodeSize_pos (.tag nm attrs cs)
      · obtain ⟨hc, hr⟩ := by simpa using h
        subst hc; subst hr; simp
  · intro n h
    cases n with
    | text s => simp [delete_a_icon] at h
    | tag nm attrs cs => simp only [delete_a_icon] at h; split at h <;> simp at h

theorem goodRule_delete_a_pattern (nfc : Str → Str) (p : Str → Bool) :
    GoodRule (delete_a_pattern nfc p) := by
  constructor
  · intro n c repl h
    cases n with
    | text s =>
      simp only [delete_a_pattern] at h
      obtain ⟨hc, hr⟩ := by simpa using h
      subst hc; subst hr; simp
    | tag nm attrs cs =>
      simp only [delete_a_pattern] at h
      split at h
      · split at h
        · obtain ⟨hc, hr⟩ := by simpa using h
          subst hc; subst hr
          refine ⟨fun _ => ?_, by simp⟩
          simpa [sizeList] using nodeSize_pos (.tag nm attrs cs)
        · obtain ⟨hc, hr⟩ := by simpa using h
          subst hc; subst hr; simp
      · obtain ⟨hc, hr⟩ := by simpa using h
        subst hc; subst hr; simp
  · intro n h
    cases n with
    | text s => simp [delete_a_pattern] at h
    | tag nm attrs cs =>
      simp only [delete_a_pattern] at h
      split at h <;> (try split at h) <;> simp at h

theorem normalize_text_nil (nfc : Str → Str) (h0 : nfc [] = []) :
    normalize_text nfc [] = [] := by
  simp [normalize_text, h0]

theorem goodRule_strip_a_lexeme (nfc : Str → Str) (h0 : nfc [] = []) :
    GoodRule (strip_a_lexeme nfc) := by
  constructor
  · intro n c repl h
    cases n with
    | text s =>
      simp only [strip_a_lexeme] at h
      obtain ⟨hc, hr⟩ := by simpa using h
      subst hc; subst hr; simp
    | tag nm attrs cs =>
      simp only [strip_a_lexeme] at h
      split at h
      · split at h
        · simp at h
        · rename_i hlast
          have hcs : cs ≠ [] := by
            intro hnil
            subst hnil
            rw [show renderList [] = [] from rfl, normalize_text_nil nfc h0] at hlast
            simp [splitWs, splitWsAux] at hlast
          split at h
          · obtain ⟨hc, hr⟩ := by simpa using h
            subst hc; subst hr
            refine ⟨fun _ => ?_, by simp⟩
            have := sizeList_pos_of_ne_nil cs hcs
            simp [sizeList, nodeSize]
            omega
          · obtain ⟨hc, hr⟩ := by simpa using h
            subst hc; subst hr
            refine ⟨fun _ => ?_, by simp⟩
            simp [nodeSize]
      · obtain ⟨hc, hr⟩ := by simpa using h
        subst hc; subst hr; simp
  · intro n h
    cases n with
    | text s => simp [strip_a_lexeme] at h
    | tag nm attrs cs =>
      simp only [strip_a_lexeme] at h
      split at h <;> (try split at h) <;> (try split at h) <;> simp at h

theorem providedRule_good (nfc : Str → Str) (h0 : nfc [] = []) (r : Rule)
    (hr : ProvidedRule nfc r) : GoodRule r := by
  rcases hr with hm | ⟨p, hp⟩
  · simp only [dudenRules, List.mem_cons, List.not_mem_nil, or_false] at hm
    rcases hm with h | h | h | h | h | h
    · subst h; exact goodRule_strip_span
    · subst h; exact goodRule_strip_italic
    · subst h; exact goodRule_delete_any_a
    · subst h; exact goodRule_delete_a_rule
    · subst h; exact goodRule_delete_a_icon
    · rw [show r = strip_a_lexeme nfc from h]
      exact goodRule_strip_a_lexeme nfc h0
  · subst hp; exact goodRule_delete_a_pattern nfc p

theorem applyRule_size (r : Rule) (hg : GoodRule r) :
    ∀ ns b ns', applyRule r ns = .ok (b, ns') →
      sizeList ns' ≤ sizeList ns ∧ (b = false → ns' = ns) ∧
      (b = true → sizeList ns' < sizeList ns) := by
  intro ns
  induction ns with
  | nil =>
    intro b ns' h
    simp only [applyRule] at h
    obtain ⟨hb, hn⟩ := by simpa using h
    subst hb; subst hn
    simp
  | cons n rest ih =>
    intro b ns' h
    simp only [applyRule] at h
    cases hr : r n with
    | error e => rw [hr] at h; simp at h
    | ok o =>
      obtain ⟨c, repl⟩ := o
      rw [hr] at h
      cases ha : applyRule r rest with
      | error e => rw [ha] at h; simp at h
      | ok o' =>
        obtain ⟨c', rest'⟩ := o'
        rw [ha] at h
        obtain ⟨hb, hn⟩ := by simpa using h
        subst hb; subst hn
        obtain ⟨h1, h2, h3⟩ := ih c' rest' ha
        obtain ⟨hfire, hpass⟩ := hg.1 n c repl hr
        constructor
        · rw [sizeList_append]
          cases c with
          | true =>
            have := hfire rfl
            simp [sizeList]; omega
          | false =>
            have := hpass rfl
            subst this
            simp [sizeList, Option.getD] at *
            omega
        · constructor
          · intro hb
            simp at hb
            obtain ⟨hc, hc'⟩ := hb
            subst hc
            have := hpass rfl
            subst this
            rw [h2 hc']
            simp
          · intro hb
            rw [sizeList_append]
            simp at hb
            rcases hb with hc | hc'
            · subst hc
              have := hfire rfl
              have := h1
              simp [sizeList]; omega
            · have := h3 hc'
              cases c with
              | true =>
                have := hfire rfl
                simp [sizeList]; omega
              | false =>
                have := hpass rfl
                subst this
                simp [sizeList, Option.getD] at *
                omega

theorem runPass_size (rules : List Rule) (hg : ∀ r ∈ rules, GoodRule r) :
    ∀ acc ns b ns', runPass rules acc ns = .ok (b, ns') →
      sizeList ns' ≤ sizeList ns ∧ (b = false → ns' = ns ∧ acc = false) ∧
      (acc = false → b = true → sizeList ns' < sizeList ns) := by
  induction rules with
  | nil =>
    intro acc ns b ns' h
    simp only [runPass] at h
    obtain ⟨hb, hn⟩ := by simpa using h
    subst hb; subst hn
    exact ⟨le_refl _, fun hb => ⟨rfl, hb⟩, fun ha hb => by rw [ha] at hb; cases hb⟩
  | cons r rs ih =>
    intro acc ns b ns' h
    simp only [runPass] at h
    cases ha : applyRule r ns with
    | error e => rw [ha] at h; simp at h
    | ok o =>
      obtain ⟨c, ns₁⟩ := o
      rw [ha] at h
      obtain ⟨ha1, ha2, ha3⟩ :=
        applyRule_size r (hg r (List.mem_cons_self r rs)) ns c ns₁ ha
      obtain ⟨hi1, hi2, hi3⟩ := ih (fun r' hr' => hg r' (List.mem_cons_of_mem r hr'))
        (acc || c) ns₁ b ns' h
      refine ⟨le_trans hi1 ha1, ?_, ?_⟩
      · intro hb
        obtain ⟨hn, hacc⟩ := hi2 hb
        simp at hacc
        obtain ⟨hacc, hc⟩ := hacc
        subst hacc
        rw [ha2 hc] at hn
        exact ⟨hn, rfl⟩
      · intro hacc hb
        subst hacc
        cases hc : c with
        | true =>
          rw [hc] at ha3
          exact lt_of_le_of_lt hi1 (ha3 rfl)
        | false =>
          rw [hc] at ha2
          rw [ha2 rfl] at hi3 hi1
          exact hi3 (by simp [hc]) hb

theorem runPass_error_ne_fuel (rules : List Rule) (hg : ∀ r ∈ rules, GoodRule r) :
    ∀ acc ns e, runPass rules acc ns = .error e → e ≠ .fuelExhausted := by
  have happly : ∀ r, GoodRule r → ∀ ns e, applyRule r ns = .error e → e ≠ .fuelExhausted := by
    intro r hr ns
    induction ns with
    | nil => intro e h; simp [applyRule] at h
    | cons n rest ih =>
      intro e h
      simp only [applyRule] at h
      cases hn : r n with
      | error e' =>
        rw [hn] at h
        simp at h
        subst h
        intro hfe
        subst hfe
        exact hr.2 n hn
      | ok o =>
        obtain ⟨c, repl⟩ := o
        rw [hn] at h
        cases ha : applyRule r rest with
        | error e' =>
          rw [ha] at h
          simp at h
          subst h
          exact ih e' ha
        | ok o' => rw [ha] at h; simp at h
  induction rules with
  | nil => intro acc ns e h; simp [runPass] at h
  | cons r rs ih =>
    intro acc ns e h
    simp only [runPass] at h
    cases ha : applyRule r ns with
    | error e' =>
      rw [ha] at h
      simp at h
      subst h
      exact happly r (hg r (List.mem_cons_self r rs)) ns _ ha
    | ok o =>
      obtain ⟨c, ns₁⟩ := o
      rw [ha] at h
      exact ih (fun r' hr' => hg r' (List.mem_cons_of_mem r hr')) (acc || c) ns₁ e h

theorem cleanLoop_no_fuel_error (rules : List Rule) (hg : ∀ r ∈ rules, GoodRule r) :
    ∀ fuel ns, sizeList ns < fuel → cleanLoop fuel rules ns ≠ .error .fuelExhausted := by
  intro fuel
  induction fuel with
  | zero => intro ns h; omega
  | succ f ih =>
    intro ns hlt
    simp only [cleanLoop]
    cases hp : runPass rules false ns with
    | error e =>
      have hne := runPass_error_ne_fuel rules hg false ns e hp
      simp [Except.error.injEq, hne]
    | ok o =>
      obtain ⟨b, ns'⟩ := o
      cases b with
      | false => simp
      | true =>
        obtain ⟨h1, _, h3⟩ := runPass_size rules hg false ns true ns' hp
        exact ih ns' (by have := h3 rfl rfl; omega)

theorem cleanLoop_stable (rules : List Rule) (hg : ∀ r ∈ rules, GoodRule r) :
    ∀ fuel fuel' ns, sizeList ns < fuel → sizeList ns < fuel' →
      cleanLoop fuel rules ns = cleanLoop fuel' rules ns := by
  intro fuel
  induction fuel with
  | zero => intro fuel' ns h; omega
  | succ f ih =>
    intro fuel' ns hlt hlt'
    cases fuel' with
    | zero => omega
    | succ f' =>
      simp only [cleanLoop]
      cases hp : runPass rules false ns with
      | error e => rfl
      | ok o =>
        obtain ⟨b, ns'⟩ := o
        cases b with
        | false => rfl
        | true =>
          obtain ⟨h1, _, h3⟩ := runPass_size rules hg false ns true ns' hp
          have hs := h3 rfl rfl
          exact ih f' ns' (by omega) (by omega)

theorem providedRule_textInert (nfc : Str → Str) (r : Rule)
    (hr : ProvidedRule nfc r) : TextInert r := by
  rcases hr with hm | ⟨p, hp⟩
  · simp only [dudenRules, List.mem_cons, List.not_mem_nil, or_false] at hm
    rcases hm with h | h | h | h | h | h <;> subst h <;> intro s <;> rfl
  · subst hp; intro s; rfl

theorem runPass_text (rules : List Rule) (hti : ∀ r ∈ rules, TextInert r) :
    ∀ acc s, runPass rules acc [.text s] = .ok (acc, [.text s]) := by
  induction rules with
  | nil => intro acc s; rfl
  | cons r rs ih =>
    intro acc s
    have h1 : applyRule r [.text s] = .ok (false, [.text s]) := by
      simp [applyRule, hti r (List.mem_cons_self r rs) s, Option.getD]
    simp only [runPass, h1]
    simpa using ih (fun r' hr' => hti r' (List.mem_cons_of_mem r hr')) acc s

theorem cleanLoop_text (rules : List Rule) (hti : ∀ r ∈ rules, TextInert r)
    (f : Nat) (s : Str) : cleanLoop (f + 1) rules [.text s] = .ok [.text s] := by
  simp [cleanLoop, runPass_text rules hti false s]

theorem normalize_text_eq_filterMap (nfc : Str → Str) (s : Str) :
    normalize_text nfc s = (nfc s).filterMap normStep := by
  unfold normalize_text
  rw [← List.filterMap_eq_filter, List.filterMap_map, List.filterMap_map]
  apply List.filterMap_congr
  intro c _
  by_cases h1 : c = '\u00AD'
  · subst h1; rfl
  · by_cases h2 : c = '\u00A0'
    · subst h2; rfl
    · by_cases h3 : c = '\u202F'
      · subst h3; rfl
      · simp [Option.guard, normStep, h1, h2, h3]

theorem mem_filterMap_normStep_ne (s : Str) (c : Char)
    (hc : c ∈ s.filterMap normStep) :
    c ≠ '\u00AD' ∧ c ≠ '\u00A0' ∧ c ≠ '\u202F' := by
  rw [List.mem_filterMap] at hc
  obtain ⟨a, _, ha⟩ := hc
  unfold normStep at ha
  split at ha
  · cases ha
  · split at ha
    · obtain rfl : ' ' = c := by simpa using ha
      refine ⟨by decide, by decide, by decide⟩
    · split at ha
      · obtain rfl : ' ' = c := by simpa using ha
        refine ⟨by decide, by decide, by decide⟩
      · obtain rfl : a = c := by simpa using ha
        rename_i hn1 hn2 hn3
        exact ⟨hn1, hn2, hn3⟩

theorem splitOnChar_ne_nil (sep : Char) (s : Str) : splitOnChar sep s ≠ [] := by
  induction s with
  | nil => simp [splitOnChar]
  | cons c rest ih =>
    simp only [splitOnChar]
    split
    · simp
    · cases h : splitOnChar sep rest with
      | nil => simp
      | cons s0 ss => simp

theorem joinWith_splitOnChar (sep : Char) : ∀ s, joinWith sep (splitOnChar sep s) = s := by
  intro s
  induction s with
  | nil => rfl
  | cons c rest ih =>
    simp only [splitOnChar]
    split
    · rename_i hc
      have hc' : c = sep := by simpa using hc
      subst hc'
      cases h : splitOnChar c rest with
      | nil => exact absurd h (splitOnChar_ne_nil c rest)
      | cons s0 ss =>
        rw [h] at ih
        simp [joinWith, ih]
    · cases h : splitOnChar sep rest with
      | nil => exact absurd h (splitOnChar_ne_nil sep rest)
      | cons s0 ss =>
        rw [h] at ih
        cases ss with
        | nil => simp [joinWith] at ih ⊢; exact ih
        | cons s1 ss' =>
          simp only [joinWith] at ih ⊢
          simp [ih]

theorem splitOnChar_no_sep (sep : Char) :
    ∀ s t, t ∈ splitOnChar sep s → sep ∉ t := by
  intro s
  induction s with
  | nil =>
    intro t ht
    simp [splitOnChar] at ht
    subst ht
    simp
  | cons c rest ih =>
    intro t ht
    simp only [splitOnChar] at ht
    split at ht
    · rcases (by simpa using ht : t = [] ∨ t ∈ splitOnChar sep rest) with h | h
      · subst h; simp
      · exact ih t h
    · rename_i hc
      cases h : splitOnChar sep rest with
      | nil => exact absurd h (splitOnChar_ne_nil sep rest)
      | cons s0 ss =>
        rw [h] at ht
        rcases (by simpa using ht : t = c :: s0 ∨ t ∈ ss) with h1 | h1
        · subst h1
          intro hmem
          rcases (by simpa using hmem : sep = c ∨ sep ∈ s0) with h2 | h2
          · subst h2; simp at hc
          · exact ih s0 (by rw [h]; exact List.mem_cons_self s0 ss) h2
        · exact ih t (by rw [h]; exact List.mem_cons_of_mem s0 h1)

theorem parse_tag_value_eq_lookup (s : Str) :
    WordType.parse_tag_value s = lookupWordType s wordTypeTable := rfl

theorem lookupWordType_none_iff (s : Str) :
    ∀ t, lookupWordType s t = none ↔ ∀ p ∈ t, p.1 ≠ s := by
  intro t
  induction t with
  | nil => simp [lookupWordType]
  | cons kv rest ih =>
    obtain ⟨k, v⟩ := kv
    simp only [lookupWordType]
    split
    · rename_i heq
      subst heq
      constructor
      · intro h
        simp at h
      · intro h
        exact absurd rfl (h (_, v) (List.mem_cons_self _ _))
    · rename_i hne
      simp only [List.mem_cons, ih]
      constructor
      · rintro h p (rfl | hp)
        · simpa using fun hc => hne hc.symm
        · exact h p hp
      · intro h p hp
        exact h p (Or.inr hp)

theorem mapE_ok_length (f : α → Except CleanErr β) :
    ∀ as bs, mapE f as = .ok bs → bs.length = as.length := by
  intro as
  induction as with
  | nil =>
    intro bs h
    simp only [mapE] at h
    obtain rfl : [] = bs := by simpa using h
    rfl
  | cons a rest ih =>
    intro bs h
    simp only [mapE] at h
    cases hf : f a with
    | error e => rw [hf] at h; simp at h
    | ok b =>
      rw [hf] at h
      cases hm : mapE f rest with
      | error e => rw [hm] at h; simp at h
      | ok bs' =>
        rw [hm] at h
        obtain rfl : b :: bs' = bs := by simpa using h
        simp [ih bs' hm]

theorem from_single_cases (nfc : Str → Str) (tag : Node) (mt : Node)
    (hmt : (match findInNode (nameIs "p".data) tag with
            | some t => some t
            | none => findInNode (nameIs "div".data) tag) = some mt) :
    Meaning.from_single nfc tag = .error .typeError ∨
    Meaning.from_single nfc tag = .error .indexError ∨
    Meaning.from_single nfc tag = .error .fuelExhausted ∨
    ∃ m, Meaning.from_single nfc tag = .ok (some [m]) := by
  unfold Meaning.from_single
  rw [hmt]
  dsimp only
  cases hmp : mapE (fun e => cleanStd (exampleRules nfc) e) (childrenOf mt) with
  | error e => cases e <;> simp [hmp]
  | ok parts =>
    cases hdl : extract_dl nfc tag with
    | error e => cases e <;> simp [hmp, hdl]
    | ok dls =>
      cases hex : Meaning.examples_from_tag nfc
          ⟨normalize_text nfc parts.flatten, none, none, none⟩
          (selectField dls "Beispiel".data) with
      | error e => cases e <;> simp [hmp, hdl, hex]
      | ok m =>
        refine Or.inr (Or.inr (Or.inr ⟨m, ?_⟩))
        simp [hmp, hdl, hex]

theorem from_single_shape (nfc : Str → Str) (tag : Node) (l : List Meaning)
    (h : Meaning.from_single nfc tag = .ok (some l)) : ∃ m, l = [m] := by
  cases hmt : (match findInNode (nameIs "p".data) tag with
              | some t => some t
              | none => findInNode (nameIs "div".data) tag) with
  | none =>
    unfold Meaning.from_single at h
    rw [hmt] at h
    simp at h
  | some mt =>
    rcases from_single_cases nfc tag mt hmt with h' | h' | h' | ⟨m, h'⟩ <;>
      rw [h'] at h
    · simp at h
    · simp at h
    · simp at h
    · exact ⟨m, by simpa using h.symm⟩

theorem from_single_ok_none_iff (nfc : Str → Str) (tag : Node) :
    Meaning.from_single nfc tag = .ok none ↔
      findInNode (nameIs "p".data) tag = none ∧
      findInNode (nameIs "div".data) tag = none := by
  constructor
  · intro h
    cases hmt : (match findInNode (nameIs "p".data) tag with
                | some t => some t
                | none => findInNode (nameIs "div".data) tag) with
    | none =>
      cases hp : findInNode (nameIs "p".data) tag with
      | none =>
        rw [hp] at hmt
        dsimp only at hmt
        exact ⟨rfl, hmt⟩
      | some t => rw [hp] at hmt; dsimp only at hmt; simp at hmt
    | some mt =>
      rcases from_single_cases nfc tag mt hmt with h' | h' | h' | ⟨m, h'⟩ <;>
        rw [h'] at h <;> simp at h
  · intro ⟨h1, h2⟩
    unfold Meaning.from_single
    rw [h1, h2]

theorem from_many_some_ne_nil (nfc : Str → Str) (tag : Node) (l : List Meaning)
    (h : Meaning.from_many nfc tag = .ok (some l)) : l ≠ [] := by
  unfold Meaning.from_many at h
  cases hol : findInNode (nameIs "ol".data) tag with
  | none => rw [hol] at h; simp at h
  | some ol =>
    rw [hol] at h
    dsimp only at h
    cases hms : mapE
        (fun li => (Meaning.from_single nfc li).map (fun o => o.bind List.head?))
        (findAllInNode (fun n => nameIs "li".data n && idMatchesBedeutung n) ol) with
    | error e => rw [hms] at h; simp at h
    | ok ms =>
      rw [hms] at h
      dsimp only at h
      split at h
      · simp at h
      · rename_i hne
        obtain h' := by simpa using h
        intro hnil
        exact hne (by rw [h', hnil]; rfl)

theorem mapE_from_single_ok (nfc : Str → Str) :
    ∀ lis : List Node,
      (∀ li ∈ lis, isOkSomeOne (Meaning.from_single nfc li) = true) →
      ∃ ms : List (Option Meaning),
        mapE (fun li => (Meaning.from_single nfc li).map (fun o => o.bind List.head?))
          lis = .ok ms ∧
        ms.length = lis.length ∧ ∀ x ∈ ms, x.isSome = true := by
  intro lis
  induction lis with
  | nil => intro _; exact ⟨[], rfl, rfl, by simp⟩
  | cons li rest ih =>
    intro h
    have hli := h li (List.mem_cons_self li rest)
    obtain ⟨ms', hm1, hm2, hm3⟩ := ih (fun x hx => h x (List.mem_cons_of_mem li hx))
    unfold isOkSomeOne at hli
    split at hli
    · rename_i l hl
      obtain ⟨m, rfl⟩ := from_single_shape nfc li l hl
      refine ⟨some m :: ms', ?_, by simp [hm2], ?_⟩
      · have hbli : (Meaning.from_single nfc li).map
            (fun o : Option (List Meaning) => o.bind List.head?) = .ok (some m) := by
          rw [hl]; rfl
        simp only [mapE, hbli, hm1]
      · intro x hx
        rcases (by simpa using hx : x = some m ∨ x ∈ ms') with h' | h'
        · subst h'; rfl
        · exact hm3 x h'
    · simp at hli

theorem filterMap_id_length (ms : List (Option Meaning))
    (h : ∀ x ∈ ms, x.isSome = true) : (ms.filterMap id).length = ms.length := by
  induction ms with
  | nil => rfl
  | cons x rest ih =>
    have hx := h x (List.mem_cons_self x rest)
    obtain ⟨a, rfl⟩ := Option.isSome_iff_exists.mp hx
    simp only [List.filterMap_cons, id]
    simp [ih (fun y hy => h y (List.mem_cons_of_mem _ hy))]

/-- C1 amended claim: `clean` repeats passes until no rule fires, but within
one pass the rules are applied sequentially in the given order, each rule
sweeping the entire current sequence (every node contributing the rule's
returned sequence, nothing when absent), so replacement nodes produced by an
earlier rule of a pass are further rewritten by the later rules within the
same pass; `clean_text` equals that sweep-based fixed point for every fuel,
rule list, and input node. -/
theorem clean_text_eq_rule_sweep_fixpoint (fuel : Nat) (rules : List Rule) (e : Node) :
    clean_text fuel e (some rules) = amendClean fuel rules e := by
  simp only [clean_text, amendClean, cleanLoop_eq_amendCleanLoop]

/-- C1 counterexample: with the repository's own `dl_split` rule list, the
code deletes the inner icon span within the first pass (the icon-deletion
rule sees the node unwrapped by the earlier span rule in the same pass) and
returns the empty string, while the claimed per-node first-rule algorithm
unwraps it on the next pass (the span rule fires first) and returns `x`;
both sides are stable under extra fuel. -/
theorem clean_text_differs_from_per_node_passes :
    clean_text 2 cexNodeC1 (some (dlRules id)) = .ok [] ∧
    clean_text 3 cexNodeC1 (some (dlRules id)) = .ok [] ∧
    specClean 3 (dlRules id) cexNodeC1 = .ok "x".data ∧
    specClean 4 (dlRules id) cexNodeC1 = .ok "x".data ∧
    ("x".data : Str) ≠ [] := by
  refine ⟨by decide, by decide, by decide, by decide, by decide⟩

/-- C2 amended claim: for every finite node sequence and every list of the
provided stripping rules, the fixed-point loop of `clean` reaches its result
within `total node count + 1` passes (it never exhausts that fuel, and any
larger fuel gives the same result), and the total node count is non-increasing
from each pass to the next; the sequence length itself may grow (see the
counterexample). -/
theorem clean_fixpoint_terminates (nfc : Str → Str) (h0 : nfc [] = [])
    (rules : List Rule) (hr : ∀ r ∈ rules, ProvidedRule nfc r) (ns : List Node) :
    cleanLoop (sizeList ns + 1) rules ns ≠ .error .fuelExhausted ∧
    (∀ fuel, sizeList ns < fuel →
      cleanLoop fuel rules ns = cleanLoop (sizeList ns + 1) rules ns) ∧
    ∀ b ns', runPass rules false ns = .ok (b, ns') → sizeList ns' ≤ sizeList ns := by
  have hg : ∀ r ∈ rules, GoodRule r := fun r hm => providedRule_good nfc h0 r (hr r hm)
  refine ⟨cleanLoop_no_fuel_error rules hg _ ns (by omega), ?_, ?_⟩
  · intro fuel hf
    exact cleanLoop_stable rules hg fuel _ ns hf (by omega)
  · intro b ns' hp
    exact (runPass_size rules hg false ns b ns' hp).1

/-- C2 counterexample: one pass of `clean` over the one-element sequence
`[<span>ab</span>]` produces a two-element sequence, so the length of the
node sequence is not non-increasing from pass to pass (the total node count
is what decreases). -/
theorem pass_length_can_increase :
    runPass [strip_span] false [cexNodeC2] =
      .ok (true, [.text "a".data, .text "b".data]) ∧
    [cexNodeC2].length = 1 ∧
    [Node.text "a".data, Node.text "b".data].length = 2 :=
  ⟨rfl, rfl, rfl⟩

theorem clean_fixpoint_terminates_witness :
    cleanLoop (sizeList [nestedWrappers] + 1) [strip_span, strip_italic]
      [nestedWrappers] ≠ .error .fuelExhausted ∧
    cleanLoop (sizeList [nestedWrappers] + 1) [strip_span, strip_italic]
      [nestedWrappers] = .ok [.text "tief".data] :=
  ⟨(clean_fixpoint_terminates id rfl [strip_span, strip_italic]
      (by
        intro r hrm
        left
        simp only [dudenRules, List.mem_cons, List.not_mem_nil, or_false]
        rcases (by simpa using hrm : r = strip_span ∨ r = strip_italic) with h | h
        · exact Or.inl h
        · exact Or.inr (Or.inl h))
      [nestedWrappers]).1,
    rfl⟩

/-- C3 amended claim: the meaning-block parser uses the single-meaning
container (`id="bedeutung"`) exclusively when it exists — yielding exactly
one record when that container has a paragraph/div meaning child and no
meanings otherwise; only if it is absent is the multi-meaning container
(`id="bedeutungen"`) inspected, yielding one record per matching list item
whose extraction succeeds, in document order (3 matching items that all
yield records give exactly 3); if neither container exists the parser
yields no meanings. -/
theorem meaning_dispatch (nfc : Str → Str) (soup a : Node)
    (ha : findInNode (nameIs "article".data) soup = some a) :
    (∀ d, findInNode (isDivWithId "bedeutung".data) a = some d →
      Meaning.from_soup nfc soup = Meaning.from_single nfc d ∧
      ∀ l, Meaning.from_single nfc d = .ok (some l) → l.length = 1) ∧
    (findInNode (isDivWithId "bedeutung".data) a = none →
      (∀ d, findInNode (isDivWithId "bedeutungen".data) a = some d →
        Meaning.from_soup nfc soup = Meaning.from_many nfc d ∧
        ∀ ol, findInNode (nameIs "ol".data) d = some ol →
          findAllInNode (fun n => nameIs "li".data n && idMatchesBedeutung n) ol ≠ [] →
          (∀ li ∈ findAllInNode (fun n => nameIs "li".data n && idMatchesBedeutung n) ol,
            isOkSomeOne (Meaning.from_single nfc li) = true) →
          ∃ l, Meaning.from_many nfc d = .ok (some l) ∧
            l.length = (findAllInNode
              (fun n => nameIs "li".data n && idMatchesBedeutung n) ol).length) ∧
      (findInNode (isDivWithId "bedeutungen".data) a = none →
        Meaning.from_soup nfc soup = .ok none)) := by
  refine ⟨?_, ?_⟩
  · intro d hd
    constructor
    · unfold Meaning.from_soup
      rw [ha]
      dsimp only
      rw [hd]
    · intro l hl
      obtain ⟨m, rfl⟩ := from_single_shape nfc d l hl
      rfl
  · intro hnone
    refine ⟨?_, ?_⟩
    · intro d hd
      constructor
      · unfold Meaning.from_soup
        rw [ha]
        dsimp only
        rw [hnone]
        dsimp only
        rw [hd]
      · intro ol hol hne hall
        obtain ⟨ms, hm1, hm2, hm3⟩ := mapE_from_single_ok nfc _ hall
        have hlen := filterMap_id_length ms hm3
        refine ⟨ms.filterMap id, ?_, by rw [hlen, hm2]⟩
        unfold Meaning.from_many
        rw [hol]
        dsimp only
        rw [hm1]
        dsimp only
        have hkept : ¬((ms.filterMap id).isEmpty = true) := by
          rw [List.isEmpty_iff]
          intro hc
          apply hne
          have : (ms.filterMap id).length = 0 := by rw [hc]; rfl
          rw [hlen, hm2] at this
          exact List.eq_nil_of_length_eq_zero this
        rw [if_neg hkept]
    · intro hnone2
      unfold Meaning.from_soup
      rw [ha]
      dsimp only
      rw [hnone]
      dsimp only
      rw [hnone2]

/-- C3 counterexample: the single-meaning container exists, yet the parser
yields no meanings at all (the container has no paragraph/div meaning child),
not "exactly one meaning record" as claimed. -/
theorem single_container_can_yield_no_meanings :
    findInNode (nameIs "article".data) cexSoupC3 = some cexArticleC3 ∧
    findInNode (isDivWithId "bedeutung".data) cexArticleC3 = some cexDivC3 ∧
    Meaning.from_soup id cexSoupC3 = .ok none :=
  ⟨rfl, rfl, rfl⟩

theorem meaning_dispatch_witness :
    Meaning.from_soup id soupC3 = Meaning.from_many id dC3 ∧
    ∃ l, Meaning.from_many id dC3 = .ok (some l) ∧
      l.length = (findAllInNode
        (fun n => nameIs "li".data n && idMatchesBedeutung n) olC3).length := by
  have h := meaning_dispatch id soupC3 articleC3 rfl
  obtain ⟨hm, hrest⟩ := (h.2 rfl).1 dC3 rfl
  refine ⟨hm, ?_⟩
  have heval : findAllInNode (fun n => nameIs "li".data n && idMatchesBedeutung n) olC3
      = [liC3 "Bedeutung-1".data "eins".data, liC3 "Bedeutung-2".data "zwei".data,
          liC3 "Bedeutung-3".data "drei".data] := rfl
  refine hrest olC3 rfl ?_ ?_
  · rw [heval]
    simp
  · intro li hli
    rw [heval] at hli
    rcases (by simpa using hli :
        li = liC3 "Bedeutung-1".data "eins".data ∨
        li = liC3 "Bedeutung-2".data "zwei".data ∨
        li = liC3 "Bedeutung-3".data "drei".data) with h' | h' | h' <;>
      subst h' <;> rfl

/-- C4: the word-class decoder is an exact match of the field value string
against the fixed label table of the `match contents` block: it succeeds
exactly on the table's labels (in particular `Substantiv, feminin` decodes to
`NOUN_FEMININE`), and any other label (such as `sonstwas`) yields the raised
`NotImplementedError`, modelled `none` — never a default or absent value. -/
theorem word_class_exact_match_table :
    (∀ s : Str, WordType.parse_tag_value s = lookupWordType s wordTypeTable) ∧
    (∀ s : Str, WordType.parse_tag_value s = none ↔ ∀ p ∈ wordTypeTable, p.1 ≠ s) ∧
    WordType.parse_tag_value "Substantiv, feminin".data = some .NOUN_FEMININE ∧
    WordType.parse_tag_value "sonstwas".data = none := by
  refine ⟨parse_tag_value_eq_lookup, ?_, by decide, by decide⟩
  intro s
  rw [parse_tag_value_eq_lookup]
  exact lookupWordType_none_iff s wordTypeTable

/-- C5 amended claim: the single-meaning extraction yields no record exactly
when the container has no paragraph and no div descendant; when it yields
records it yields exactly one, but its meaning string may be empty (the
claimed non-empty invariant does not hold — see the counterexample); in the
multi-meaning layout, items yielding no record are dropped and an empty
remainder collapses to no meanings, so a returned record list is never
empty. -/
theorem meaning_emitted_iff_meaning_child (nfc : Str → Str) (tag : Node) :
    (Meaning.from_single nfc tag = .ok none ↔
      findInNode (nameIs "p".data) tag = none ∧
      findInNode (nameIs "div".data) tag = none) ∧
    (∀ l, Meaning.from_single nfc tag = .ok (some l) → ∃ m, l = [m]) ∧
    (∀ l, Meaning.from_many nfc tag = .ok (some l) → l ≠ []) :=
  ⟨from_single_ok_none_iff nfc tag, fun l h => from_single_shape nfc tag l h,
    fun l h => from_many_some_ne_nil nfc tag l h⟩

/-- C5 counterexample: the meaning-block parser emits a record whose meaning
string is empty after normalization — the record is not discarded, refuting
the claimed invariant. -/
theorem meaning_record_can_be_empty :
    Meaning.from_soup id cexSoupC5 = .ok (some [⟨[], none, none, none⟩]) :=
  rfl

theorem meaning_emitted_iff_meaning_child_witness :
    (∃ m, [(⟨"Sinn".data, none, none, none⟩ : Meaning)] = [m]) ∧
    Meaning.from_single id divC5 = .ok (some [⟨"Sinn".data, none, none, none⟩]) :=
  ⟨(meaning_emitted_iff_meaning_child id divC5).2.1
      [⟨"Sinn".data, none, none, none⟩] rfl,
    rfl⟩

/-- C6 amended claim: the examples decoder selects the field whose label
starts with `Beispiel`, cleans its content with the engine using the
style-unwrap, emphasis-unwrap, reference-rule-deletion and lexeme-stripping
rules (no unconditional hyperlink deletion — see the counterexample), joins
the cleaned children, splits on `;` and strips each segment, preserving
order and content (joining the split back with `;` restores the cleaned
text, and no segment contains `;`); an absent field yields no examples, not
an error. -/
theorem examples_decoder_splits_and_trims (nfc : Str → Str) (r : Rechtschreibung)
    (t : Node) (parts : List Str)
    (h : mapE (fun e => cleanStd (exampleRules nfc) e) (childrenOf t) = .ok parts) :
    Rechtschreibung.examples_from_tag nfc r (some t) =
      .ok ⟨r.hyphenation, some ((splitOnChar ';' parts.flatten).map pyStrip)⟩ ∧
    joinWith ';' (splitOnChar ';' parts.flatten) = parts.flatten ∧
    (∀ seg ∈ splitOnChar ';' parts.flatten, ';' ∉ seg) ∧
    Rechtschreibung.examples_from_tag nfc r none = .ok r := by
  refine ⟨?_, joinWith_splitOnChar ';' parts.flatten,
    fun seg hseg => splitOnChar_no_sep ';' parts.flatten seg hseg, rfl⟩
  unfold Rechtschreibung.examples_from_tag
  dsimp only
  rw [h]

/-- C6 counterexample: the code's examples decoder has no unconditional
hyperlink deletion, so a plain link survives as its literal markup, while
the spec's claimed rule set (with `delete_any_a` added) deletes it. -/
theorem examples_decoder_keeps_plain_links :
    Rechtschreibung.examples_from_tag id ⟨none, none⟩ (some cexTagC6) =
      .ok ⟨none, some ["<a>klick</a>".data]⟩ ∧
    specExamplesDecoder id ⟨none, none⟩ (some cexTagC6) = .ok ⟨none, some [[]]⟩ ∧
    ("<a>klick</a>".data : Str) ≠ [] :=
  ⟨rfl, rfl, by decide⟩

theorem examples_decoder_splits_and_trims_witness :
    Rechtschreibung.examples_from_tag id ⟨none, none⟩ (some w6tag) =
      .ok ⟨none, some ["Er ist schnell".data, "Sie ist schneller".data]⟩ := by
  have h := (examples_decoder_splits_and_trims id ⟨none, none⟩ w6tag
      ["Er ist schnell; Sie ist schneller".data] rfl).1
  rw [h]
  decide

/-- C7 amended claim: for rule lists drawn from the module's provided rules —
none of which fires on a text leaf — `clean` is idempotent on its own output:
re-cleaning the produced string (a text leaf) under any positive fuel returns
it unchanged; the property fails for arbitrary rule lists (see the
counterexample). -/
theorem clean_idempotent_on_provided_rules (nfc : Str → Str) (rules : List Rule)
    (hr : ∀ r ∈ rules, ProvidedRule nfc r) (fuel : Nat) (x : Node) (s : Str)
    (h : clean_text fuel x (some rules) = .ok s) (fuel' : Nat) (hf : 1 ≤ fuel') :
    clean_text fuel' (.text s) (some rules) = .ok s := by
  have hti : ∀ r ∈ rules, TextInert r :=
    fun r hm => providedRule_textInert nfc r (hr r hm)
  obtain ⟨k, rfl⟩ : ∃ k, fuel' = k + 1 := ⟨fuel' - 1, by omega⟩
  simp [clean_text, cleanLoop_text rules hti k s, Except.map, renderList, render]

/-- C7 counterexample: with the rule list `[strip_span, cexRuleC7]`, clean of
`<span>ab</span>` is `ab` (the two text leaves are separately irreducible),
but clean of the produced string `ab` is `X` — `clean` applied twice to its
own output is not a no-op for every rule list; both computations are stable
under extra fuel. -/
theorem clean_not_idempotent_for_arbitrary_rules :
    clean_text 2 cexNodeC7 (some [strip_span, cexRuleC7]) = .ok "ab".data ∧
    clean_text 3 cexNodeC7 (some [strip_span, cexRuleC7]) = .ok "ab".data ∧
    clean_text 2 (.text "ab".data) (some [strip_span, cexRuleC7]) = .ok "X".data ∧
    clean_text 3 (.text "ab".data) (some [strip_span, cexRuleC7]) = .ok "X".data ∧
    ("X".data : Str) ≠ "ab".data := by
  refine ⟨by decide, by decide, by decide, by decide, by decide⟩

theorem clean_idempotent_on_provided_rules_witness :
    clean_text 1 (.text "Hallo".data) (some [strip_span, strip_italic]) =
      .ok "Hallo".data :=
  clean_idempotent_on_provided_rules id [strip_span, strip_italic]
    (by
      intro r hrm
      left
      simp only [dudenRules, List.mem_cons, List.not_mem_nil, or_false]
      rcases (by simpa using hrm : r = strip_span ∨ r = strip_italic) with h | h
      · exact Or.inl h
      · exact Or.inr (Or.inl h))
    2 (.tag "span".data [] [.text "Hallo".data]) "Hallo".data (by decide) 1 (by decide)

/-- C8: for every composition function `nfc` and every string, the text
normalizer equals NFC followed by the character-level step that deletes the
soft hyphen U+00AD and replaces the no-break spaces U+00A0 and U+202F by a
regular space (the steps applied in the source's order), and its output
never contains U+00A0, U+202F or U+00AD; it is a total function — no error
condition exists on any input. -/
theorem normalize_applies_steps_in_order (nfc : Str → Str) (s : Str) :
    normalize_text nfc s = (nfc s).filterMap normStep ∧
    ' ' ∉ normalize_text nfc s ∧
    ' ' ∉ normalize_text nfc s ∧
    '­' ∉ normalize_text nfc s := by
  refine ⟨normalize_text_eq_filterMap nfc s, ?_, ?_, ?_⟩
  · intro hmem
    rw [normalize_text_eq_filterMap] at hmem
    exact (mem_filterMap_normStep_ne _ _ hmem).2.1 rfl
  · intro hmem
    rw [normalize_text_eq_filterMap] at hmem
    exact (mem_filterMap_normStep_ne _ _ hmem).2.2 rfl
  · intro hmem
    rw [normalize_text_eq_filterMap] at hmem
    exact (mem_filterMap_normStep_ne _ _ hmem).1 rfl

/-- C9 amended claim: the hyphenation decoder stores the field value's first
child as-is (its string form), with no text normalization applied; a value
with no children raises `IndexError`, and an absent field leaves the record
unchanged. -/
theorem hyphenation_returns_first_child_unnormalized (r : Rechtschreibung) :
    Rechtschreibung.hyphenation_from_tag r none = .ok r ∧
    (∀ t : Node, childrenOf t = [] →
      Rechtschreibung.hyphenation_from_tag r (some t) = .error .indexError) ∧
    (∀ t c cs, childrenOf t = c :: cs →
      Rechtschreibung.hyphenation_from_tag r (some t) =
        .ok ⟨some (render c), r.examples⟩) := by
  refine ⟨rfl, ?_, ?_⟩
  · intro t h
    unfold Rechtschreibung.hyphenation_from_tag
    dsimp only
    rw [h]
  · intro t c cs h
    unfold Rechtschreibung.hyphenation_from_tag
    dsimp only
    rw [h]

/-- C9 counterexample: the code's hyphenation decoder keeps the soft hyphen
(it applies no normalization), while the spec's "first child's text,
normalized" deletes it. -/
theorem hyphenation_not_normalized :
    Rechtschreibung.hyphenation_from_tag ⟨none, none⟩ (some cexTagC9) =
      .ok ⟨some "Auf­gabe".data, none⟩ ∧
    specHyphenation id cexTagC9 = some "Aufgabe".data ∧
    ("Auf­gabe".data : Str) ≠ "Aufgabe".data :=
  ⟨rfl, rfl, by decide⟩

theorem hyphenation_returns_first_child_unnormalized_witness :
    Rechtschreibung.hyphenation_from_tag ⟨none, some []⟩ (some w9tag) =
      .ok ⟨some "Wort".data, some []⟩ :=
  (hyphenation_returns_first_child_unnormalized ⟨none, some []⟩).2.2 w9tag
    (.text "Wort".data) [] rfl

/-- C10: the lexeme-stripping rule is not total: on an element carrying the
`data-duden-ref-type=lexeme` marker whose content normalizes to an empty or
whitespace-only string, `lexeme_strs[-1]` reads the last token of the empty
token list and raises `IndexError` instead of returning a
`(consumed, replacement)` result — and `clean` with that rule in its list
raises too (the hypothesis `nfc [] = []` states that NFC maps the empty
string to itself). -/
theorem strip_a_lexeme_crashes_on_empty_content (nfc : Str → Str)
    (h0 : nfc [] = []) (fuel : Nat) (hf : 1 ≤ fuel) :
    strip_a_lexeme nfc lexNode = .error .indexError ∧
    clean_text fuel lexNode (some [strip_a_lexeme nfc]) = .error .indexError := by
  have hN : normalize_text nfc [] = [] := normalize_text_nil nfc h0
  have h1 : strip_a_lexeme nfc lexNode = .error .indexError := by
    calc strip_a_lexeme nfc lexNode
        = (match (splitWs (normalize_text nfc (renderList ([] : List Node)))).getLast? with
           | none => (.error .indexError : Except CleanErr RuleOut)
           | some last =>
             if lexemeParen last then
               .ok (true, some [.text
                 (splitWs (normalize_text nfc (renderList ([] : List Node)))).dropLast.flatten])
             else .ok (true, some ([] : List Node))) := rfl
      _ = .error .indexError := by
          rw [show renderList ([] : List Node) = [] from rfl, hN]
          rfl
  refine ⟨h1, ?_⟩
  obtain ⟨k, rfl⟩ : ∃ k, fuel = k + 1 := ⟨fuel - 1, by omega⟩
  have h2 : applyRule (strip_a_lexeme nfc) [lexNode] = .error .indexError := by
    simp [applyRule, h1]
  have h3 : runPass [strip_a_lexeme nfc] false [lexNode] = .error .indexError := by
    simp [runPass, h2]
  simp [clean_text, cleanLoop, h3, Except.map]

theorem strip_a_lexeme_crashes_on_empty_content_witness :
    strip_a_lexeme id lexNode = .error .indexError ∧
    clean_text 1 lexNode (some [strip_a_lexeme id]) = .error .indexError :=
  strip_a_lexeme_crashes_on_empty_content id rfl 1 (by decide)
